import Mathlib

/-!
Verification of the dune-weaver Studio frontend (frontend/src/pages/StudioPage.tsx).

This file shallowly embeds the pure logic of the page — the pattern save
pipeline (transform, polar conversion, angle unwrapping, interpolation,
radius clamping), pattern normalization, playlist editing, playlist duration
estimation, pause-time display conversion, the clear-pattern option lists and
the zoom transform updates — and proves the specified properties about these
definitions.  JavaScript numbers are modelled as real numbers (for the
geometry) or rationals (for the pause/duration arithmetic).
-/

namespace DuneWeaver

/-- Cartesian point, from the TypeScript `interface Point { x, y : number }`. -/
@[ext]
structure Point where
  x : ℝ
  y : ℝ

/-- Studio transform state, from `interface Transform`. -/
structure Transform where
  zoom : ℝ
  rotation : ℝ
  panX : ℝ
  panY : ℝ
  flipX : Bool
  flipY : Bool

/-- The transform value installed by "Reset Transforms" and by
`normalizeAndCenter`: `{ zoom: 1, rotation: 0, panX: 0, panY: 0, flipX: false, flipY: false }`. -/
def resetTransform : Transform :=
  ⟨1, 0, 0, 0, false, false⟩

/-- The studio state touched by `normalizeAndCenter`: the loaded point list
(`originalPoints`) and the current transform. -/
structure StudioState where
  originalPoints : List Point
  transform : Transform

/- ### Playlist editing (handleRemovePattern), for C4 and C5 -/

/-- The list update performed by `handleRemovePattern`:
`newPatterns.splice(index, 1)` deletes the single element at `index`
(JavaScript splice with a non-negative start removes `deleteCount` elements
there, i.e. keeps the prefix before `index` and the suffix after it). -/
def handleRemovePattern (playlistPatterns : List String) (index : ℕ) : List String :=
  playlistPatterns.take index ++ playlistPatterns.drop (index + 1)

/-- `handleRemovePattern` together with its guard: the handler returns early
(no update) when no playlist is selected, otherwise it posts the updated list
and reports success.  `some` is the successfully stored new pattern list. -/
def handleRemovePatternRun (selectedPlaylist : Option String)
    (playlistPatterns : List String) (index : ℕ) : Option (List String) :=
  match selectedPlaylist with
  | Option.none => Option.none
  | Option.some _ => Option.some (handleRemovePattern playlistPatterns index)

/- ### Pause time conversion, for C6 and C8 -/

/-- The pause-time unit, from the TypeScript union `'sec' | 'min' | 'hr'`. -/
inductive PauseUnit
  | sec
  | min
  | hr
deriving DecidableEq

/-- `getPauseTimeInSeconds` from the playlist page: converts the configured
pause value to seconds according to the selected unit. -/
def getPauseTimeInSeconds (pauseTime : ℚ) (pauseUnit : PauseUnit) : ℚ :=
  match pauseUnit with
  | PauseUnit.hr => pauseTime * 3600
  | PauseUnit.min => pauseTime * 60
  | PauseUnit.sec => pauseTime

/-- Truncation toward zero, as used by the JavaScript `%` operator
(the remainder takes the sign of the dividend). -/
def jsTrunc (q : ℚ) : ℤ :=
  if 0 ≤ q then ⌊q⌋ else ⌈q⌉

/-- The JavaScript remainder `x % y` (for `y ≠ 0`): `x - y * trunc (x / y)`. -/
def jsMod (x y : ℚ) : ℚ :=
  x - y * (jsTrunc (x / y) : ℚ)

/-- Result of `secondsToDisplayPause`: a display value and a unit. -/
structure DisplayPause where
  value : ℚ
  unit : PauseUnit
deriving DecidableEq

/-- `secondsToDisplayPause`: chooses hours when the value is at least 3600 and
divisible by 3600, else minutes when at least 60 and divisible by 60, else
seconds. -/
def secondsToDisplayPause (seconds : ℚ) : DisplayPause :=
  if 3600 ≤ seconds ∧ jsMod seconds 3600 = 0 then
    ⟨seconds / 3600, PauseUnit.hr⟩
  else if 60 ≤ seconds ∧ jsMod seconds 60 = 0 then
    ⟨seconds / 60, PauseUnit.min⟩
  else
    ⟨seconds, PauseUnit.sec⟩

/-- `displayPauseToSeconds`: converts a display value and unit back to seconds. -/
def displayPauseToSeconds (value : ℚ) (unit : PauseUnit) : ℚ :=
  match unit with
  | PauseUnit.hr => value * 3600
  | PauseUnit.min => value * 60
  | PauseUnit.sec => value

/- ### Playlist duration estimate (playlistDurations), for C6 -/

/-- The breakdown returned by `playlistDurations`. -/
structure DurationBreakdown where
  patterns : ℚ
  clears : ℚ
  pauses : ℚ
  total : ℚ
deriving DecidableEq

/-- `playlistDurations`.  The per-pattern metadata lookup
(`allPatterns.find(p => p.path === path)?.estimated_duration`, parsed from
duration strings such as "1h 15m") is abstracted as `metaSeconds`, which is
`some` exactly when the pattern has an estimated duration; `clearSeconds`
abstracts `estimateClearPatternDuration clearPattern` and `clearEnabled` is
the test `clearPattern !== 'none'`.  The memo returns `null` when no playlist
is selected or the pattern list is empty; pauses are counted between patterns
only (`pausePerPattern * (length - 1)` when `length > 1`, else `0`). -/
def playlistDurations (selectedPlaylist : Option String) (playlistPatterns : List String)
    (metaSeconds : String → Option ℚ) (clearEnabled : Bool) (clearSeconds : ℚ)
    (pauseTime : ℚ) (pauseUnit : PauseUnit) : Option DurationBreakdown :=
  if selectedPlaylist = Option.none ∨ playlistPatterns.length = 0 then
    Option.none
  else
    let pausePerPattern := getPauseTimeInSeconds pauseTime pauseUnit
    let totalPauseSeconds : ℚ :=
      if 1 < playlistPatterns.length then
        pausePerPattern * ((playlistPatterns.length : ℚ) - 1)
      else 0
    let sums :=
      playlistPatterns.foldl
        (fun (acc : ℚ × ℚ) (path : String) =>
          match metaSeconds path with
          | Option.none => acc
          | Option.some s => (acc.1 + s, acc.2 + (if clearEnabled then clearSeconds else 0)))
        (0, 0)
    Option.some ⟨sums.1, sums.2, totalPauseSeconds, sums.1 + sums.2 + totalPauseSeconds⟩

/- ### Clear-pattern policies, for C7 -/

/-- The TypeScript union
`type PreExecution = 'none' | 'adaptive' | 'clear_from_in' | 'clear_from_out' | 'clear_sideway'`. -/
inductive PreExecution
  | none
  | adaptive
  | clear_from_in
  | clear_from_out
  | clear_sideway
deriving DecidableEq

/-- The string literal of each `PreExecution` member. -/
def PreExecution.str : PreExecution → String
  | PreExecution.none => "none"
  | PreExecution.adaptive => "adaptive"
  | PreExecution.clear_from_in => "clear_from_in"
  | PreExecution.clear_from_out => "clear_from_out"
  | PreExecution.clear_sideway => "clear_sideway"

/-- An entry of `preExecutionOptions`: `{ value: PreExecution; label: string }`. -/
structure PreExecutionOption where
  value : PreExecution
  label : String
deriving DecidableEq

/-- The `preExecutionOptions` constant (the selectable clear-pattern policies
offered to the run dialogs). -/
def preExecutionOptions : List PreExecutionOption :=
  [⟨PreExecution.adaptive, "Adaptive"⟩,
   ⟨PreExecution.clear_from_in, "Clear From Center"⟩,
   ⟨PreExecution.clear_from_out, "Clear From Perimeter"⟩,
   ⟨PreExecution.clear_sideway, "Clear Sideways"⟩,
   ⟨PreExecution.none, "None"⟩]

/-- The clear-pattern values offered by the auto-play settings Select
(the SelectItem values; `clear_pattern` is a plain string there). -/
def autoPlayClearPatternValues : List String :=
  ["none", "adaptive", "clear_from_in", "clear_from_out", "clear_sideway", "random"]

/- ### Zoom transitions, for C10 -/

/-- `handleWheel`'s zoom update:
`Math.min(Math.max(prev.zoom + (-e.deltaY * 0.001), 0.1), 10.0)`. -/
noncomputable def handleWheelZoom (zoom deltaY : ℝ) : ℝ :=
  min (max (zoom + -deltaY * 0.001) 0.1) 10.0

/-- One user operation's effect on the Studio zoom factor:
the wheel handler (clamped), the zoom range input (constrained by the element
to `[0.1, 5]`), the Reset Transforms button and `normalizeAndCenter` (both set
zoom to 1), and every other transform operation (pan, rotate, flips), which
leaves zoom unchanged. -/
inductive ZoomStep : ℝ → ℝ → Prop
  | wheel (zoom deltaY : ℝ) : ZoomStep zoom (handleWheelZoom zoom deltaY)
  | slider (zoom v : ℝ) (h1 : 0.1 ≤ v) (h2 : v ≤ 5) : ZoomStep zoom v
  | reset (zoom : ℝ) : ZoomStep zoom resetTransform.zoom
  | load (zoom : ℝ) : ZoomStep zoom resetTransform.zoom
  | keep (zoom : ℝ) : ZoomStep zoom zoom

/-- A zoom value reachable from the initial transform (`zoom: 1`) by user
operations. -/
def ZoomReachable (z : ℝ) : Prop :=
  Relation.ReflTransGen ZoomStep 1 z

/- ### Geometry helpers (applyTransform, getPolar), for C1-C3 -/

/-- `applyTransform`: flips, zoom, rotation, then pan. -/
noncomputable def applyTransform (tf : Transform) (x y : ℝ) : Point :=
  let x1 := x * (if tf.flipX then -1 else 1)
  let y1 := y * (if tf.flipY then -1 else 1)
  let x2 := x1 * tf.zoom
  let y2 := y1 * tf.zoom
  let c := Real.cos tf.rotation
  let s := Real.sin tf.rotation
  ⟨x2 * c - y2 * s + tf.panX, x2 * s + y2 * c + tf.panY⟩

/-- `Math.atan2 y x` (ECMAScript, over the reals): the angle of the point
`(x, y)`, in `[-π, π]`. -/
noncomputable def atan2 (y x : ℝ) : ℝ :=
  if 0 < x then Real.arctan (y / x)
  else if x < 0 then
    (if 0 ≤ y then Real.arctan (y / x) + Real.pi else Real.arctan (y / x) - Real.pi)
  else
    (if 0 < y then Real.pi / 2 else if y < 0 then -(Real.pi / 2) else 0)

/-- Result of `getPolar`. -/
structure Polar where
  r : ℝ
  theta : ℝ

/-- `getPolar`: `{ r: Math.sqrt(x*x + y*y), theta: Math.atan2(y, x) }`. -/
noncomputable def getPolar (x y : ℝ) : Polar :=
  ⟨Real.sqrt (x * x + y * y), atan2 y x⟩

/- ### The handleSave pipeline, for C1-C3 -/

/-- The delta adjustment in handleSave's loop:
`delta = rawTheta - prevTheta; if (delta > π) delta -= 2π; else if (delta < -π) delta += 2π`. -/
noncomputable def unwrapDelta (prevTheta rawTheta : ℝ) : ℝ :=
  let delta := rawTheta - prevTheta
  if Real.pi < delta then delta - 2 * Real.pi
  else if delta < -Real.pi then delta + 2 * Real.pi
  else delta

/-- The Euclidean distance handleSave computes between consecutive transformed
points: `Math.sqrt(Math.pow(curr.x - prevPt.x, 2) + Math.pow(curr.y - prevPt.y, 2))`. -/
noncomputable def segDist (prevPt curr : Point) : ℝ :=
  Real.sqrt ((curr.x - prevPt.x) ^ 2 + (curr.y - prevPt.y) ^ 2)

/-- The interpolation step count: `Math.ceil(dist / 0.01)`. -/
noncomputable def segSteps (prevPt curr : Point) : ℕ :=
  (⌈segDist prevPt curr / 0.01⌉).toNat

/-- The sample point at loop index `s` (with `t = s / steps`):
`(prevPt.x + (curr.x - prevPt.x) * t, prevPt.y + (curr.y - prevPt.y) * t)`. -/
noncomputable def sampleAt (prevPt curr : Point) (steps s : ℕ) : Point :=
  ⟨prevPt.x + (curr.x - prevPt.x) * ((s : ℝ) / (steps : ℝ)),
   prevPt.y + (curr.y - prevPt.y) * ((s : ℝ) / (steps : ℝ))⟩

/-- The samples emitted for one consecutive pair: `s = 1 .. steps`. -/
noncomputable def interpPoints (prevPt curr : Point) : List Point :=
  (List.range (segSteps prevPt curr)).map
    (fun k => sampleAt prevPt curr (segSteps prevPt curr) (k + 1))

/-- handleSave's inner loop over the interpolated samples of one segment.
Threads `(prevTheta, cumulativeTheta)` exactly as the code does and returns
the emitted `(cumulativeTheta, r)` lines together with the final
`(prevTheta, cumulativeTheta)` pair. -/
noncomputable def emitSamples (prevTheta cumTheta : ℝ) :
    List Point → List (ℝ × ℝ) × ℝ × ℝ
  | [] => ([], prevTheta, cumTheta)
  | p :: ps =>
    let pol := getPolar p.x p.y
    let r := if 1 < pol.r then 1 else pol.r
    let delta := unwrapDelta prevTheta pol.theta
    let cum := cumTheta + delta
    let rest := emitSamples pol.theta cum ps
    ((cum, r) :: rest.1, rest.2)

/-- handleSave's outer loop over the remaining transformed points
(`i = 1 .. length - 1`): each pair `(prevPt, curr)` contributes its
interpolated samples, and the `(prevTheta, cumulativeTheta)` state is carried
across segments. -/
noncomputable def emitSegments (prevTheta cumTheta : ℝ) (prevPt : Point) :
    List Point → List (ℝ × ℝ)
  | [] => []
  | curr :: rest =>
    let out := emitSamples prevTheta cumTheta (interpPoints prevPt curr)
    out.1 ++ emitSegments out.2.1 out.2.2 curr rest

/-- The `(theta, r)` pairs handleSave writes to the .thr content (the values
before 5-decimal formatting): the first transformed point is written with
`cumulativeTheta = theta₀` and `r = min(r₀, 1)`, then every further point is
interpolated and written by the inner loop. -/
noncomputable def saveLines (tf : Transform) (pts : List Point) : List (ℝ × ℝ) :=
  match pts with
  | [] => []
  | p0 :: rest =>
    let c0 := applyTransform tf p0.x p0.y
    let pol := getPolar c0.x c0.y
    (pol.theta, min pol.r 1) ::
      emitSegments pol.theta pol.theta c0 (rest.map (fun p => applyTransform tf p.x p.y))

/- ### normalizeAndCenter, for C9 -/

/-- The radius bound tracked by `normalizeAndCenter`: `maxR` starts at `0` and
is raised to every point's `Math.sqrt(p.x * p.x + p.y * p.y)`. -/
noncomputable def maxRadius (pts : List Point) : ℝ :=
  pts.foldl (fun m p => max m (Real.sqrt (p.x * p.x + p.y * p.y))) 0

/-- The centering pass of `normalizeAndCenter`: the bounding box is computed
by folding `min`/`max` over all coordinates (the code starts the folds at
`±Infinity`, which on a nonempty list equals starting at the first element),
and every point is translated by the bounding-box midpoint. -/
noncomputable def centeredOf (pts : List Point) : List Point :=
  match pts with
  | [] => []
  | p0 :: rest =>
    let minX := (p0 :: rest).foldl (fun m p => min m p.x) p0.x
    let maxX := (p0 :: rest).foldl (fun m p => max m p.x) p0.x
    let minY := (p0 :: rest).foldl (fun m p => min m p.y) p0.y
    let maxY := (p0 :: rest).foldl (fun m p => max m p.y) p0.y
    let centerX := (minX + maxX) / 2
    let centerY := (minY + maxY) / 2
    (p0 :: rest).map (fun p => ⟨p.x - centerX, p.y - centerY⟩)

/-- `normalizeAndCenter`: empty input returns early (state unchanged);
otherwise the points are centered, scaled by `maxR` when `maxR > 0`, stored
as the loaded points, and the transform is reset. -/
noncomputable def normalizeAndCenter (st : StudioState) (points : List Point) :
    StudioState :=
  match points with
  | [] => st
  | p0 :: rest =>
    let centered := centeredOf (p0 :: rest)
    let maxR := maxRadius centered
    let normalized :=
      if 0 < maxR then centered.map (fun p => ⟨p.x / maxR, p.y / maxR⟩) else centered
    ⟨normalized, resetTransform⟩

/-! ## Theorems -/

/-- The atan2 result always lies in [-π, π]. -/
lemma abs_atan2_le_pi (y x : ℝ) : |atan2 y x| ≤ Real.pi := by
  have hpi := Real.pi_pos
  rw [abs_le, atan2]
  split_ifs with hx hx2 hy hy2 hy3
  · have h1 := Real.arctan_lt_pi_div_two (y / x)
    have h2 := Real.neg_pi_div_two_lt_arctan (y / x)
    constructor <;> linarith
  · have h1 : Real.arctan (y / x) ≤ 0 := by
      rw [← Real.arctan_zero]
      exact Real.arctan_strictMono.monotone
        (div_nonpos_iff.mpr (Or.inl ⟨hy, hx2.le⟩))
    have h2 := Real.neg_pi_div_two_lt_arctan (y / x)
    constructor <;> linarith
  · have h1 : 0 ≤ Real.arctan (y / x) := by
      rw [← Real.arctan_zero]
      exact Real.arctan_strictMono.monotone
        (div_pos_of_neg_of_neg (by linarith) hx2).le
    have h2 := Real.arctan_lt_pi_div_two (y / x)
    constructor <;> linarith
  · constructor <;> linarith
  · constructor <;> linarith
  · constructor <;> linarith

/-- Whenever both angles lie in [-π, π], the adjusted delta lies in [-π, π]. -/
lemma abs_unwrapDelta_le_pi (p r : ℝ) (hp : |p| ≤ Real.pi) (hr : |r| ≤ Real.pi) :
    |unwrapDelta p r| ≤ Real.pi := by
  rw [abs_le] at hp hr ⊢
  rw [unwrapDelta]
  split_ifs with h1 h2 <;> constructor <;> linarith

/-- The adjustment is applied exactly once: the adjusted delta is the raw
delta, or the raw delta shifted by exactly one step of ±2π. -/
lemma unwrapDelta_cases (p r : ℝ) :
    unwrapDelta p r = r - p ∨ unwrapDelta p r = r - p - 2 * Real.pi ∨
      unwrapDelta p r = r - p + 2 * Real.pi := by
  rw [unwrapDelta]
  split_ifs with h1 h2
  · exact Or.inr (Or.inl rfl)
  · exact Or.inr (Or.inr rfl)
  · exact Or.inl rfl

/-- Invariants of the inner sample loop: the threaded prevTheta stays in
[-π, π], the emitted cumulative thetas (prefixed with the incoming
cumulative theta) form a chain with steps of size at most π, and the
threaded cumulative theta is the last element of that chain. -/
lemma emitSamples_spec (ps : List Point) : ∀ (prevTheta cumTheta : ℝ),
    |prevTheta| ≤ Real.pi →
    |(emitSamples prevTheta cumTheta ps).2.1| ≤ Real.pi ∧
    List.Chain' (fun a b => |b - a| ≤ Real.pi)
      (cumTheta :: ((emitSamples prevTheta cumTheta ps).1.map Prod.fst)) ∧
    (cumTheta :: ((emitSamples prevTheta cumTheta ps).1.map Prod.fst)).getLast? =
      some (emitSamples prevTheta cumTheta ps).2.2 := by
  induction ps with
  | nil =>
    intro prevTheta cumTheta h
    refine ⟨h, ?_, rfl⟩
    simp [emitSamples]
  | cons p ps ih =>
    intro prevTheta cumTheta h
    have hth : |(getPolar p.x p.y).theta| ≤ Real.pi := abs_atan2_le_pi p.y p.x
    have hd : |unwrapDelta prevTheta (getPolar p.x p.y).theta| ≤ Real.pi :=
      abs_unwrapDelta_le_pi _ _ h hth
    obtain ⟨ih1, ih2, ih3⟩ :=
      ih (getPolar p.x p.y).theta
        (cumTheta + unwrapDelta prevTheta (getPolar p.x p.y).theta) hth
    refine ⟨?_, ?_, ?_⟩
    · simpa [emitSamples] using ih1
    · simp only [emitSamples, List.map_cons, List.chain'_cons]
      constructor
      · simpa using hd
      · exact ih2
    · simp only [emitSamples, List.map_cons, List.getLast?_cons_cons]
      exact ih3

/-- The chain invariant carries across segment boundaries. -/
lemma emitSegments_chain (rest : List Point) :
    ∀ (prevTheta cumTheta : ℝ) (prevPt : Point), |prevTheta| ≤ Real.pi →
    List.Chain' (fun a b => |b - a| ≤ Real.pi)
      (cumTheta :: (emitSegments prevTheta cumTheta prevPt rest).map Prod.fst) := by
  induction rest with
  | nil =>
    intro prevTheta cumTheta prevPt h
    simp [emitSegments]
  | cons curr rest ih =>
    intro prevTheta cumTheta prevPt h
    obtain ⟨h1, h2, h3⟩ :=
      emitSamples_spec (interpPoints prevPt curr) prevTheta cumTheta h
    have ihc := ih (emitSamples prevTheta cumTheta (interpPoints prevPt curr)).2.1
      (emitSamples prevTheta cumTheta (interpPoints prevPt curr)).2.2 curr h1
    simp only [emitSegments, List.map_append, ← List.cons_append]
    rw [List.chain'_append]
    refine ⟨h2, ihc.tail, ?_⟩
    intro a ha b hb
    rw [h3] at ha
    simp only [Option.mem_def, Option.some.injEq] at ha
    subst ha
    exact (List.chain'_cons'.mp ihc).1 b hb

/-- The written cumulative thetas of any save form a chain with steps of
size at most π. -/
lemma saveLines_chain (tf : Transform) (pts : List Point) :
    List.Chain' (fun a b => |b - a| ≤ Real.pi)
      ((saveLines tf pts).map Prod.fst) := by
  cases pts with
  | nil => simp [saveLines]
  | cons p0 rest =>
    simp only [saveLines, List.map_cons]
    exact emitSegments_chain _ _ _ _
      (abs_atan2_le_pi (applyTransform tf p0.x p0.y).y (applyTransform tf p0.x p0.y).x)

/-- Every line the inner sample loop emits has a radius in [0, 1]. -/
lemma emitSamples_r_bounds (ps : List Point) :
    ∀ (prevTheta cumTheta : ℝ) (line : ℝ × ℝ),
      line ∈ (emitSamples prevTheta cumTheta ps).1 → 0 ≤ line.2 ∧ line.2 ≤ 1 := by
  induction ps with
  | nil => intro _ _ line hline; simp [emitSamples] at hline
  | cons p ps ih =>
    intro prevTheta cumTheta line hline
    simp only [emitSamples, List.mem_cons] at hline
    rcases hline with hline | hline
    · subst hline
      simp only
      split_ifs with hr
      · norm_num
      · exact ⟨Real.sqrt_nonneg _, le_of_not_lt hr⟩
    · exact ih _ _ _ hline

/-- Every line the segment loop emits has a radius in [0, 1]. -/
lemma emitSegments_r_bounds (rest : List Point) :
    ∀ (prevTheta cumTheta : ℝ) (prevPt : Point) (line : ℝ × ℝ),
      line ∈ emitSegments prevTheta cumTheta prevPt rest →
        0 ≤ line.2 ∧ line.2 ≤ 1 := by
  induction rest with
  | nil => intro _ _ _ line hline; simp [emitSegments] at hline
  | cons curr rest ih =>
    intro prevTheta cumTheta prevPt line hline
    simp only [emitSegments, List.mem_append] at hline
    rcases hline with hline | hline
    · exact emitSamples_r_bounds _ _ _ _ hline
    · exact ih _ _ _ _ hline

/-- C1: the theta written for each emitted waypoint is continuously
unwrapped: the raw atan2 delta is adjusted by subtracting or adding 2π
exactly once (never more) precisely when it leaves [-π, π], every delta
added to the cumulative theta lies in [-π, π], and for every pattern and
transform the sequence of written thetas never jumps by more than π between
consecutive waypoints — in particular never by more than one unwrap step of
±2π. -/
theorem saveLines_theta_unwrap_C1 (prevTheta rawTheta : ℝ)
    (h1 : |prevTheta| ≤ Real.pi) (h2 : |rawTheta| ≤ Real.pi) :
    (unwrapDelta prevTheta rawTheta = rawTheta - prevTheta ∨
     unwrapDelta prevTheta rawTheta = rawTheta - prevTheta - 2 * Real.pi ∨
     unwrapDelta prevTheta rawTheta = rawTheta - prevTheta + 2 * Real.pi) ∧
    |unwrapDelta prevTheta rawTheta| ≤ Real.pi ∧
    ∀ (tf : Transform) (pts : List Point),
      List.Chain' (fun a b => |b - a| ≤ Real.pi)
        ((saveLines tf pts).map Prod.fst) :=
  ⟨unwrapDelta_cases prevTheta rawTheta,
   abs_unwrapDelta_le_pi prevTheta rawTheta h1 h2,
   fun tf pts => saveLines_chain tf pts⟩

/-- C1 witness: at prevTheta = 0 and rawTheta = 3 (both within [-π, π]),
no adjustment fires and the delta 3 is within [-π, π]. -/
theorem saveLines_theta_unwrap_C1_witness :
    |(0 : ℝ)| ≤ Real.pi ∧ |(3 : ℝ)| ≤ Real.pi ∧
    unwrapDelta 0 3 = 3 ∧
    ((unwrapDelta 0 3 = 3 - 0 ∨
      unwrapDelta 0 3 = 3 - 0 - 2 * Real.pi ∨
      unwrapDelta 0 3 = 3 - 0 + 2 * Real.pi) ∧
     |unwrapDelta 0 3| ≤ Real.pi ∧
     ∀ (tf : Transform) (pts : List Point),
       List.Chain' (fun a b => |b - a| ≤ Real.pi)
         ((saveLines tf pts).map Prod.fst)) := by
  have hpi3 := Real.pi_gt_three
  have hpi := Real.pi_pos
  have h0 : |(0 : ℝ)| ≤ Real.pi := by
    rw [abs_zero]; exact hpi.le
  have h3 : |(3 : ℝ)| ≤ Real.pi := by
    rw [abs_of_nonneg (by norm_num : (0:ℝ) ≤ 3)]; exact hpi3.le
  have hval : unwrapDelta 0 3 = 3 := by
    rw [unwrapDelta]
    rw [if_neg (by norm_num; linarith), if_neg (by norm_num; linarith)]
    norm_num
  exact ⟨h0, h3, hval, saveLines_theta_unwrap_C1 0 3 h0 h3⟩

/-- C2: every waypoint line emitted by handleSave has a radius in [0, 1]:
for every loaded point list and every transform, each emitted (possibly
interpolated) point's polar radius is non-negative and clamped to 1 before
being written. -/
theorem saveLines_radius_C2 (tf : Transform) (pts : List Point) (line : ℝ × ℝ)
    (h : line ∈ saveLines tf pts) : 0 ≤ line.2 ∧ line.2 ≤ 1 := by
  cases pts with
  | nil => simp [saveLines] at h
  | cons p0 rest =>
    simp only [saveLines, List.mem_cons] at h
    rcases h with h | h
    · subst h
      exact ⟨le_min (Real.sqrt_nonneg _) zero_le_one, min_le_right _ _⟩
    · exact emitSegments_r_bounds _ _ _ _ _ h

/-- C2 witness: saving the single point (0, 0) with the identity transform
emits exactly the line (0, 0), whose radius is within [0, 1]. -/
theorem saveLines_radius_C2_witness :
    ((0 : ℝ), (0 : ℝ)) ∈ saveLines resetTransform [⟨0, 0⟩] ∧
    (0 ≤ ((0 : ℝ), (0 : ℝ)).2 ∧ ((0 : ℝ), (0 : ℝ)).2 ≤ 1) := by
  have hmem : ((0 : ℝ), (0 : ℝ)) ∈ saveLines resetTransform [⟨0, 0⟩] := by
    simp [saveLines, applyTransform, getPolar, atan2, resetTransform,
      emitSegments, Real.cos_zero, Real.sin_zero, Real.sqrt_zero]
  exact ⟨hmem, saveLines_radius_C2 resetTransform [⟨0, 0⟩] _ hmem⟩

/-- C3: for every consecutive pair of transformed points at positive
distance d, handleSave emits exactly ⌈d / 0.01⌉ interpolated waypoints,
sampled uniformly along the straight segment (sample 0 is the previous
point, sample `steps` is the current point), and the distance between
successive underlying sample points is at most 0.01. -/
theorem interp_step_bound_C3 (prevPt curr : Point) (hd : 0 < segDist prevPt curr) :
    1 ≤ segSteps prevPt curr ∧
    (segSteps prevPt curr : ℤ) = ⌈segDist prevPt curr / 0.01⌉ ∧
    (interpPoints prevPt curr).length = segSteps prevPt curr ∧
    sampleAt prevPt curr (segSteps prevPt curr) 0 = prevPt ∧
    sampleAt prevPt curr (segSteps prevPt curr) (segSteps prevPt curr) = curr ∧
    ∀ s : ℕ, s < segSteps prevPt curr →
      segDist (sampleAt prevPt curr (segSteps prevPt curr) s)
              (sampleAt prevPt curr (segSteps prevPt curr) (s + 1)) ≤ 0.01 := by
  have hceil : 0 < ⌈segDist prevPt curr / 0.01⌉ :=
    Int.ceil_pos.mpr (div_pos hd (by norm_num))
  have hn1 : 1 ≤ segSteps prevPt curr := by
    rw [segSteps]; omega
  have hcast : (segSteps prevPt curr : ℤ) = ⌈segDist prevPt curr / 0.01⌉ :=
    Int.toNat_of_nonneg hceil.le
  have hne : ((segSteps prevPt curr : ℕ) : ℝ) ≠ 0 :=
    Nat.cast_ne_zero.mpr (by omega)
  have hpos : (0 : ℝ) < (segSteps prevPt curr : ℝ) := by
    have h0 : (0 : ℕ) < segSteps prevPt curr := by omega
    exact_mod_cast h0
  refine ⟨hn1, hcast, ?_, ?_, ?_, ?_⟩
  · simp [interpPoints]
  · ext <;> simp [sampleAt]
  · ext <;> simp [sampleAt, div_self hne]
  · intro s hs
    have hx : (sampleAt prevPt curr (segSteps prevPt curr) (s + 1)).x -
        (sampleAt prevPt curr (segSteps prevPt curr) s).x =
        (curr.x - prevPt.x) / (segSteps prevPt curr : ℝ) := by
      simp only [sampleAt]
      push_cast
      ring
    have hy : (sampleAt prevPt curr (segSteps prevPt curr) (s + 1)).y -
        (sampleAt prevPt curr (segSteps prevPt curr) s).y =
        (curr.y - prevPt.y) / (segSteps prevPt curr : ℝ) := by
      simp only [sampleAt]
      push_cast
      ring
    rw [segDist, hx, hy]
    have hsum : ((curr.x - prevPt.x) / (segSteps prevPt curr : ℝ)) ^ 2 +
        ((curr.y - prevPt.y) / (segSteps prevPt curr : ℝ)) ^ 2 =
        ((curr.x - prevPt.x) ^ 2 + (curr.y - prevPt.y) ^ 2) /
          ((segSteps prevPt curr : ℝ)) ^ 2 := by
      ring
    rw [hsum, Real.sqrt_div (by positivity), Real.sqrt_sq hpos.le]
    rw [div_le_iff₀ hpos]
    have hle := Int.le_ceil (segDist prevPt curr / 0.01)
    have hcastR : ((segSteps prevPt curr : ℕ) : ℝ) =
        ((⌈segDist prevPt curr / 0.01⌉ : ℤ) : ℝ) := by
      exact_mod_cast hcast
    rw [← hcastR] at hle
    have hfold : segDist prevPt curr =
        Real.sqrt ((curr.x - prevPt.x) ^ 2 + (curr.y - prevPt.y) ^ 2) := rfl
    rw [← hfold]
    rw [div_le_iff₀ (by norm_num : (0:ℝ) < 0.01)] at hle
    linarith

/-- C3 witness: the unit segment from (0, 0) to (1, 0) has distance 1 and is
interpolated into 100 steps. -/
theorem interp_step_bound_C3_witness :
    0 < segDist ⟨0, 0⟩ ⟨1, 0⟩ ∧
    segSteps ⟨0, 0⟩ ⟨1, 0⟩ = 100 ∧
    (1 ≤ segSteps ⟨0, 0⟩ ⟨1, 0⟩ ∧
     (segSteps ⟨0, 0⟩ ⟨1, 0⟩ : ℤ) = ⌈segDist ⟨0, 0⟩ ⟨1, 0⟩ / 0.01⌉ ∧
     (interpPoints ⟨0, 0⟩ ⟨1, 0⟩).length = segSteps ⟨0, 0⟩ ⟨1, 0⟩ ∧
     sampleAt ⟨0, 0⟩ ⟨1, 0⟩ (segSteps ⟨0, 0⟩ ⟨1, 0⟩) 0 = ⟨0, 0⟩ ∧
     sampleAt ⟨0, 0⟩ ⟨1, 0⟩ (segSteps ⟨0, 0⟩ ⟨1, 0⟩) (segSteps ⟨0, 0⟩ ⟨1, 0⟩) =
       ⟨1, 0⟩ ∧
     ∀ s : ℕ, s < segSteps ⟨0, 0⟩ ⟨1, 0⟩ →
       segDist (sampleAt ⟨0, 0⟩ ⟨1, 0⟩ (segSteps ⟨0, 0⟩ ⟨1, 0⟩) s)
               (sampleAt ⟨0, 0⟩ ⟨1, 0⟩ (segSteps ⟨0, 0⟩ ⟨1, 0⟩) (s + 1)) ≤ 0.01) := by
  have hdist : segDist ⟨0, 0⟩ ⟨1, 0⟩ = 1 := by
    rw [segDist]
    norm_num
  have hd : 0 < segDist ⟨0, 0⟩ ⟨1, 0⟩ := by rw [hdist]; norm_num
  have hsteps : segSteps ⟨0, 0⟩ ⟨1, 0⟩ = 100 := by
    rw [segSteps, hdist, show (1 : ℝ) / 0.01 = ((100 : ℤ) : ℝ) by norm_num,
      Int.ceil_intCast]
    rfl
  exact ⟨hd, hsteps, interp_step_bound_C3 ⟨0, 0⟩ ⟨1, 0⟩ hd⟩

/-- Any fold of max starting at a is at least a. -/
lemma le_foldl_max (f : Point → ℝ) :
    ∀ (l : List Point) (a : ℝ), a ≤ l.foldl (fun m p => max m (f p)) a := by
  intro l
  induction l with
  | nil => intro a; exact le_refl a
  | cons q l ih => intro a; exact le_trans (le_max_left a (f q)) (ih (max a (f q)))

/-- Any member's value is at most the fold of max over the list. -/
lemma mem_le_foldl_max (f : Point → ℝ) :
    ∀ (l : List Point) (a : ℝ) (p : Point), p ∈ l →
      f p ≤ l.foldl (fun m p => max m (f p)) a := by
  intro l
  induction l with
  | nil => intro a p hp; simp at hp
  | cons q l ih =>
    intro a p hp
    rcases List.mem_cons.mp hp with h | h
    · subst h
      exact le_trans (le_max_right a (f p)) (le_foldl_max f l (max a (f p)))
    · exact ih (max a (f q)) p h

/-- Dividing all folded values and the accumulator by a common non-negative
constant divides the fold result. -/
lemma foldl_max_div (g : Point → ℝ) (c : ℝ) (hc : 0 ≤ c) :
    ∀ (l : List Point) (a : ℝ),
      l.foldl (fun m p => max m (g p / c)) (a / c) =
        l.foldl (fun m p => max m (g p)) a / c := by
  intro l
  induction l with
  | nil => intro a; rfl
  | cons q l ih =>
    intro a
    show List.foldl _ (max (a / c) (g q / c)) l = _
    rw [max_div_div_right hc, ih, List.foldl_cons]

/-- Each point's radius is bounded by maxRadius of any list containing it. -/
lemma mem_le_maxRadius (l : List Point) (p : Point) (hp : p ∈ l) :
    Real.sqrt (p.x * p.x + p.y * p.y) ≤ maxRadius l := by
  rw [maxRadius]
  exact mem_le_foldl_max (fun p => Real.sqrt (p.x * p.x + p.y * p.y)) l 0 p hp

/-- maxRadius is non-negative (the fold starts at 0). -/
lemma maxRadius_nonneg (l : List Point) : 0 ≤ maxRadius l := by
  rw [maxRadius]
  exact le_foldl_max (fun p => Real.sqrt (p.x * p.x + p.y * p.y)) l 0

/-- Scaling both coordinates by a positive constant divides the radius. -/
lemma radius_div (x y c : ℝ) (hc : 0 < c) :
    Real.sqrt (x / c * (x / c) + y / c * (y / c)) =
      Real.sqrt (x * x + y * y) / c := by
  rw [show x / c * (x / c) + y / c * (y / c) = (x * x + y * y) / (c * c) by ring,
    Real.sqrt_div (add_nonneg (mul_self_nonneg x) (mul_self_nonneg y)),
    Real.sqrt_mul_self hc.le]

/-- C9: normalizeAndCenter postcondition: an empty input changes nothing;
for a non-empty input every stored point lies within the closed unit disk,
and when the centered points are not all at the origin the maximum radius
over the stored points is exactly 1. -/
theorem normalizeAndCenter_post_C9 (st : StudioState) (pts : List Point)
    (hne : pts ≠ []) :
    (∀ st2 : StudioState, normalizeAndCenter st2 [] = st2) ∧
    (∀ p ∈ (normalizeAndCenter st pts).originalPoints,
      Real.sqrt (p.x * p.x + p.y * p.y) ≤ 1) ∧
    ((∃ q ∈ centeredOf pts, q.x ≠ 0 ∨ q.y ≠ 0) →
      maxRadius (normalizeAndCenter st pts).originalPoints = 1) := by
  obtain ⟨p0, rest, rfl⟩ : ∃ p0 rest, pts = p0 :: rest := by
    cases pts with
    | nil => exact absurd rfl hne
    | cons a b => exact ⟨a, b, rfl⟩
  have hunfold : (normalizeAndCenter st (p0 :: rest)).originalPoints =
      if 0 < maxRadius (centeredOf (p0 :: rest)) then
        (centeredOf (p0 :: rest)).map
          (fun p => ⟨p.x / maxRadius (centeredOf (p0 :: rest)),
                     p.y / maxRadius (centeredOf (p0 :: rest))⟩)
      else centeredOf (p0 :: rest) := rfl
  refine ⟨fun st2 => rfl, ?_, ?_⟩
  · intro p hp
    rw [hunfold] at hp
    by_cases hmr : 0 < maxRadius (centeredOf (p0 :: rest))
    · rw [if_pos hmr] at hp
      obtain ⟨q, hq, rfl⟩ := List.mem_map.mp hp
      show Real.sqrt _ ≤ 1
      rw [radius_div q.x q.y _ hmr]
      rw [div_le_one hmr]
      exact mem_le_maxRadius _ q hq
    · rw [if_neg hmr] at hp
      have h1 : Real.sqrt (p.x * p.x + p.y * p.y) ≤
          maxRadius (centeredOf (p0 :: rest)) := mem_le_maxRadius _ p hp
      have h2 : ¬(0 < maxRadius (centeredOf (p0 :: rest))) := hmr
      linarith
  · rintro ⟨q, hqmem, hq⟩
    have hgq : 0 < Real.sqrt (q.x * q.x + q.y * q.y) := by
      apply Real.sqrt_pos.mpr
      rcases hq with h | h
      · exact add_pos_of_pos_of_nonneg (mul_self_pos.mpr h) (mul_self_nonneg q.y)
      · exact add_pos_of_nonneg_of_pos (mul_self_nonneg q.x) (mul_self_pos.mpr h)
    have hmr : 0 < maxRadius (centeredOf (p0 :: rest)) :=
      lt_of_lt_of_le hgq (mem_le_maxRadius _ q hqmem)
    rw [show (normalizeAndCenter st (p0 :: rest)).originalPoints =
        (centeredOf (p0 :: rest)).map
          (fun p => ⟨p.x / maxRadius (centeredOf (p0 :: rest)),
                     p.y / maxRadius (centeredOf (p0 :: rest))⟩) by
      rw [hunfold, if_pos hmr]]
    rw [maxRadius, List.foldl_map]
    have hcongr : (fun (m : ℝ) (p : Point) =>
        max m (Real.sqrt
          ((p.x / maxRadius (centeredOf (p0 :: rest))) *
            (p.x / maxRadius (centeredOf (p0 :: rest))) +
          (p.y / maxRadius (centeredOf (p0 :: rest))) *
            (p.y / maxRadius (centeredOf (p0 :: rest)))))) =
        (fun (m : ℝ) (p : Point) =>
          max m (Real.sqrt (p.x * p.x + p.y * p.y) /
            maxRadius (centeredOf (p0 :: rest)))) := by
      funext m p
      rw [radius_div p.x p.y _ hmr]
    rw [hcongr, show (0 : ℝ) = 0 / maxRadius (centeredOf (p0 :: rest)) by
      rw [zero_div], foldl_max_div _ _ hmr.le]
    rw [← maxRadius]
    exact div_self hmr.ne'

/-- C9 witness: loading the two points (0, 0) and (2, 0) centers them to
(-1, 0) and (1, 0); they are not all at the origin and the stored maximum
radius is exactly 1. -/
theorem normalizeAndCenter_post_C9_witness :
    ([⟨0, 0⟩, ⟨2, 0⟩] : List Point) ≠ [] ∧
    (∃ q ∈ centeredOf [⟨0, 0⟩, ⟨2, 0⟩], q.x ≠ 0 ∨ q.y ≠ 0) ∧
    maxRadius (normalizeAndCenter ⟨[], resetTransform⟩
      [⟨0, 0⟩, ⟨2, 0⟩]).originalPoints = 1 := by
  have hne : ([⟨0, 0⟩, ⟨2, 0⟩] : List Point) ≠ [] := by simp
  have hcent : centeredOf [⟨0, 0⟩, ⟨2, 0⟩] = [⟨-1, 0⟩, ⟨1, 0⟩] := by
    simp [centeredOf, min_def, max_def]
    norm_num
  have hex : ∃ q ∈ centeredOf [⟨0, 0⟩, ⟨2, 0⟩], q.x ≠ 0 ∨ q.y ≠ 0 := by
    rw [hcent]
    exact ⟨⟨-1, 0⟩, by simp, Or.inl (by norm_num)⟩
  exact ⟨hne, hex,
    (normalizeAndCenter_post_C9 ⟨[], resetTransform⟩ _ hne).2.2 hex⟩

/-- C4: removal at a valid index deletes exactly the element at that position:
the prefix before the index and the suffix after it are unchanged in order,
the length decreases by exactly one, and every other instance of the same
pattern path is preserved (the count of any path drops by one exactly when it
is the removed element, else is unchanged). -/
theorem handleRemovePattern_removes_one_C4 (l : List String) (i : ℕ)
    (h : i < l.length) :
    (handleRemovePattern l i).length = l.length - 1 ∧
    (handleRemovePattern l i).take i = l.take i ∧
    (handleRemovePattern l i).drop i = l.drop (i + 1) ∧
    ∀ a : String, (handleRemovePattern l i).count a =
      l.count a - (if l.getD i "" = a then 1 else 0) := by
  refine ⟨?_, ?_, ?_, ?_⟩
  · simp [handleRemovePattern]
    omega
  · simp [handleRemovePattern, List.take_append_eq_append_take, List.take_take]
    omega
  · simp [handleRemovePattern, List.drop_append_eq_append_drop, List.length_take,
      min_eq_left h.le, List.drop_take]
  · intro a
    have h1 : l.drop i = l.getD i "" :: l.drop (i + 1) := by
      rw [List.drop_eq_getElem_cons h, List.getD_eq_getElem l "" h]
    have h2 : l.count a = (l.take i).count a + (l.drop i).count a := by
      rw [← List.count_append, List.take_append_drop]
    rw [h1] at h2
    generalize l.getD i "" = g at h2 ⊢
    simp only [handleRemovePattern, List.count_append]
    by_cases hga : g = a
    · simp only [List.count_cons, hga, beq_self_eq_true, if_true, if_pos] at h2 ⊢
      omega
    · simp only [List.count_cons, beq_iff_eq, hga, if_false] at h2 ⊢
      omega

/-- C4 witness: removing index 1 from ["a", "b", "a"] at a concrete input. -/
theorem handleRemovePattern_removes_one_C4_witness :
    (1 < (["a", "b", "a"] : List String).length) ∧
    (handleRemovePattern ["a", "b", "a"] 1 = ["a", "a"]) ∧
    ((handleRemovePattern ["a", "b", "a"] 1).length =
        (["a", "b", "a"] : List String).length - 1 ∧
      (handleRemovePattern ["a", "b", "a"] 1).take 1 =
        (["a", "b", "a"] : List String).take 1 ∧
      (handleRemovePattern ["a", "b", "a"] 1).drop 1 =
        (["a", "b", "a"] : List String).drop (1 + 1) ∧
      ∀ a : String, (handleRemovePattern ["a", "b", "a"] 1).count a =
        (["a", "b", "a"] : List String).count a -
          (if (["a", "b", "a"] : List String).getD 1 "" = a then 1 else 0)) :=
  ⟨by decide, by decide,
   handleRemovePattern_removes_one_C4 ["a", "b", "a"] 1 (by decide)⟩

/-- C5: removing the only entry of a one-element playlist while a playlist is
selected completes successfully and yields the empty playlist (the handler
posts the empty list and reports success; no error path is taken). -/
theorem handleRemovePattern_last_entry_C5 (name p : String) :
    handleRemovePatternRun (Option.some name) [p] 0 = Option.some [] := by
  simp [handleRemovePatternRun, handleRemovePattern]

/-- C6: in the playlist duration estimate, pauses are counted only between
patterns: whenever a breakdown is produced, its pause component is
`pause * (n - 1)` for `n > 1` patterns and `0` for `n ≤ 1` — no pause is
counted after the last pattern. -/
theorem playlistDurations_pause_C6 (sel : Option String) (pats : List String)
    (ms : String → Option ℚ) (ce : Bool) (cs : ℚ) (pt : ℚ) (pu : PauseUnit)
    (b : DurationBreakdown)
    (h : playlistDurations sel pats ms ce cs pt pu = Option.some b) :
    (1 < pats.length →
      b.pauses = getPauseTimeInSeconds pt pu * ((pats.length : ℚ) - 1)) ∧
    (pats.length ≤ 1 → b.pauses = 0) := by
  rw [playlistDurations] at h
  by_cases hguard : sel = Option.none ∨ pats.length = 0
  · rw [if_pos hguard] at h
    exact absurd h (by simp)
  · rw [if_neg hguard] at h
    simp only [Option.some.injEq] at h
    subst h
    constructor
    · intro hn
      simp [if_pos hn]
    · intro hn
      have hn2 : ¬(1 < pats.length) := by omega
      simp [if_neg hn2]

/-- C6 witness: a three-pattern playlist with a 5-second pause yields a
10-second total pause contribution. -/
theorem playlistDurations_pause_C6_witness :
    playlistDurations (Option.some "pl") ["a", "b", "c"] (fun _ => Option.none)
        false 0 5 PauseUnit.sec = Option.some ⟨0, 0, 10, 10⟩ ∧
    ((1 < (["a", "b", "c"] : List String).length →
        (DurationBreakdown.mk 0 0 10 10).pauses =
          getPauseTimeInSeconds 5 PauseUnit.sec *
            (((["a", "b", "c"] : List String).length : ℚ) - 1)) ∧
      ((["a", "b", "c"] : List String).length ≤ 1 →
        (DurationBreakdown.mk 0 0 10 10).pauses = 0)) := by
  have h : playlistDurations (Option.some "pl") ["a", "b", "c"]
      (fun _ => Option.none) false 0 5 PauseUnit.sec =
      Option.some ⟨0, 0, 10, 10⟩ := by
    simp [playlistDurations, getPauseTimeInSeconds]
    norm_num
  exact ⟨h, playlistDurations_pause_C6 _ _ _ _ _ _ _ _ h⟩

/-- C7 counterexample: the claim says the clear-pattern policies offered by
`preExecutionOptions` include `random`; they do not — `random` is not the
value of any selectable option there. -/
theorem preExecutionOptions_no_random_C7 :
    "random" ∉ preExecutionOptions.map (fun o => PreExecution.str o.value) := by
  simp [preExecutionOptions, PreExecution.str]

/-- C7 (amended): the set of selectable clear-pattern policies offered by
`preExecutionOptions` equals the five values of the option type
{none, adaptive, clear_from_in, clear_from_out, clear_sideway}: every value
of the type is selectable there and nothing else is; the sixth spec policy
`random` appears only among the plain string values of the separate
auto-play clear-pattern selector. -/
theorem preExecutionOptions_policies_C7 :
    (preExecutionOptions.map (fun o => o.value)).Perm
      [PreExecution.none, PreExecution.adaptive, PreExecution.clear_from_in,
       PreExecution.clear_from_out, PreExecution.clear_sideway] ∧
    (∀ p : PreExecution, p ∈ preExecutionOptions.map (fun o => o.value)) ∧
    "random" ∈ autoPlayClearPatternValues := by
  refine ⟨by decide, ?_, by decide⟩
  intro p
  cases p <;> simp [preExecutionOptions]

/-- C8: the pause-time display conversion round-trips: converting seconds to
a display value and unit and back yields the original number of seconds. -/
theorem pauseDisplay_roundTrip_C8 (s : ℚ) (h : 0 ≤ s) :
    displayPauseToSeconds (secondsToDisplayPause s).value
      (secondsToDisplayPause s).unit = s := by
  rw [secondsToDisplayPause]
  split_ifs with h1 h2
  · show s / 3600 * 3600 = s
    rw [div_mul_cancel₀]
    norm_num
  · show s / 60 * 60 = s
    rw [div_mul_cancel₀]
    norm_num
  · rfl

/-- C8 witness: 7200 seconds displays as 2 hours and converts back to 7200. -/
theorem pauseDisplay_roundTrip_C8_witness :
    (0 : ℚ) ≤ 7200 ∧
    secondsToDisplayPause 7200 = ⟨2, PauseUnit.hr⟩ ∧
    displayPauseToSeconds (secondsToDisplayPause 7200).value
      (secondsToDisplayPause 7200).unit = 7200 :=
  ⟨by norm_num,
   by norm_num [secondsToDisplayPause, jsMod, jsTrunc],
   pauseDisplay_roundTrip_C8 7200 (by norm_num)⟩

/-- C10: the zoom invariant: starting from the initial transform (zoom 1),
every zoom value reachable by user operations (wheel, slider, reset, pattern
load, and zoom-preserving operations) stays within [0.1, 10]. -/
theorem zoom_invariant_C10 (z : ℝ) (h : ZoomReachable z) :
    0.1 ≤ z ∧ z ≤ 10 := by
  induction h with
  | refl => norm_num
  | tail _hab hbc ih =>
    cases hbc with
    | wheel deltaY =>
      constructor
      · exact le_min (le_max_right _ _) (by norm_num)
      · calc handleWheelZoom _ deltaY ≤ 10.0 := min_le_right _ _
          _ ≤ 10 := by norm_num
    | slider v h1 h2 => exact ⟨h1, h2.trans (by norm_num)⟩
    | reset => simp [resetTransform]; norm_num
    | load => simp [resetTransform]; norm_num
    | keep => exact ih

/-- C10 witness: zoom 5 is reachable (via the slider) and within bounds. -/
theorem zoom_invariant_C10_witness :
    ZoomReachable 5 ∧ ((0.1 : ℝ) ≤ 5 ∧ (5 : ℝ) ≤ 10) :=
  have hr : ZoomReachable 5 :=
    Relation.ReflTransGen.single (ZoomStep.slider 1 5 (by norm_num) (by norm_num))
  ⟨hr, zoom_invariant_C10 5 hr⟩

end DuneWeaver
